import Mathlib

/-!
Verification of the NexusFS core (nexus_core crate) against its
natural-language specification.  The Rust sources are shallowly embedded:
machine integers become `Nat` (with explicit masks where overflow matters),
`HashMap`s become association lists, fallible operations return `Option`,
and the Windows IOCTL byte buffers become `List Nat` byte lists.
-/

set_option maxRecDepth 10000

namespace Nexus

/-- File entry with metadata (lib.rs, `struct FileEntry`).  Optional
`chrono` timestamps are modelled as optional integers, `u64` sizes as `Nat`. -/
structure FileEntry where
  path : String
  name : String
  extension : Option String
  size : Nat
  created : Option Int
  modified : Option Int
  accessed : Option Int
  is_dir : Bool
  is_hidden : Bool
  is_system : Bool
  content_hash : Option String
  parent : String
  drive : Char
deriving DecidableEq, Repr

/-- Types of file system changes (usn_journal.rs, `enum ChangeType`). -/
inductive ChangeType where
  | Created
  | Deleted
  | Modified
  | Renamed (old_name : String)
  | SecurityChange
  | Unknown
deriving DecidableEq, Repr

def USN_REASON_FILE_CREATE : Nat := 0x00000100
def USN_REASON_FILE_DELETE : Nat := 0x00000200
def USN_REASON_DATA_OVERWRITE : Nat := 0x00000001
def USN_REASON_DATA_EXTEND : Nat := 0x00000002
def USN_REASON_DATA_TRUNCATION : Nat := 0x00000004
def USN_REASON_RENAME_OLD_NAME : Nat := 0x00001000
def USN_REASON_RENAME_NEW_NAME : Nat := 0x00002000
def USN_REASON_SECURITY_CHANGE : Nat := 0x00000800

/-- Convert USN reason flags to ChangeType
(usn_journal.rs, `fn reason_to_change_type`). -/
def reason_to_change_type (reason : Nat) : ChangeType :=
  if reason &&& USN_REASON_FILE_CREATE ≠ 0 then
    ChangeType.Created
  else if reason &&& USN_REASON_FILE_DELETE ≠ 0 then
    ChangeType.Deleted
  else if reason
      &&& (USN_REASON_DATA_OVERWRITE ||| USN_REASON_DATA_EXTEND ||| USN_REASON_DATA_TRUNCATION)
      ≠ 0 then
    ChangeType.Modified
  else if reason &&& (USN_REASON_RENAME_OLD_NAME ||| USN_REASON_RENAME_NEW_NAME) ≠ 0 then
    ChangeType.Renamed ""
  else if reason &&& USN_REASON_SECURITY_CHANGE ≠ 0 then
    ChangeType.SecurityChange
  else
    ChangeType.Unknown

/-- One character of the glob translation
(tantivy_engine.rs, `fn glob_to_regex`, the `match` arms). -/
def globCharToRegex (c : Char) : List Char :=
  if c = '*' then ['.', '*']
  else if c = '?' then ['.']
  else if c = '.' ∨ c = '+' ∨ c = '(' ∨ c = ')' ∨ c = '[' ∨ c = ']' ∨
      c = '\x7b' ∨ c = '\x7d' ∨ c = '^' ∨ c = '$' ∨ c = '|' ∨ c = '\\' then
    ['\\', c]
  else [c]

/-- The character loop of `glob_to_regex` over the pattern characters. -/
def globToRegexList : List Char → List Char
  | [] => []
  | c :: rest => globCharToRegex c ++ globToRegexList rest

/-- Convert glob pattern to regex (tantivy_engine.rs, `fn glob_to_regex`):
push `^`, translate each character, push `$`. -/
def glob_to_regex (glob : String) : String :=
  String.mk ('^' :: (globToRegexList glob.data ++ ['$']))

/-- Modelled from the spec: the escape function of the spec sentence
"backslash-escape `.+()[]{}^$|\\`" — true on exactly those characters. -/
def isSpecEscapedChar (c : Char) : Bool :=
  c = '.' ∨ c = '+' ∨ c = '(' ∨ c = ')' ∨ c = '[' ∨ c = ']' ∨
    c = '\x7b' ∨ c = '\x7d' ∨ c = '^' ∨ c = '$' ∨ c = '|' ∨ c = '\\'

/-- Modelled from the spec: `escape(S)` backslash-prefixes each character
of `.+()[]{}^$|\\` and copies every other character unchanged. -/
def escapeChars : List Char → List Char
  | [] => []
  | c :: rest => (if isSpecEscapedChar c then ['\\', c] else [c]) ++ escapeChars rest

/-- Modelled from the spec: `escape` lifted to strings. -/
def escapeStr (s : String) : String :=
  String.mk (escapeChars s.data)

/-- HashMap insert modelled on association lists: the new binding shadows
any earlier binding for the same key under `List.lookup`. -/
def mapInsert {α : Type} (m : List (Nat × α)) (k : Nat) (v : α) : List (Nat × α) :=
  (k, v) :: m

/-- Path reconstruction (mft_reader.rs, `fn build_path`), embedded with an
explicit fuel parameter: the Rust function is recursive with no step bound,
so `none` records that the recursion did not complete within `fuel` nested
calls.  The `cache` is inserted into only after the recursive call returns,
exactly as in the source. -/
def build_path (fuel : Nat) (file_refs : List (Nat × String × Nat))
    (cache : List (Nat × String)) (file_ref : Nat) :
    Option (String × List (Nat × String)) :=
  match fuel with
  | 0 => none
  | fuel + 1 =>
    match List.lookup file_ref cache with
    | some cached => some (cached, cache)
    | none =>
      match List.lookup file_ref file_refs with
      | some (name, parent_ref) =>
        if parent_ref = 0 ∨ parent_ref = file_ref then
          some (name, mapInsert cache file_ref name)
        else
          match build_path fuel file_refs cache parent_ref with
          | none => none
          | some (parent_path, cache1) =>
            let path := parent_path ++ "\\" ++ name
            some (path, mapInsert cache1 file_ref path)
      | none => some ("", cache)

/-- A two-element reference table whose parent links form a cycle:
reference 1 is named "a" with parent 2, reference 2 is named "b" with
parent 1. -/
def cyclicRefs : List (Nat × String × Nat) := [(1, ("a", 2)), (2, ("b", 1))]

/-- Rust `str::to_lowercase` modelled characterwise via `Char.toLower`
(agrees with Rust on ASCII, which all witnesses below use). -/
def strToLower (s : String) : String :=
  String.mk (s.data.map Char.toLower)

/-- The characters of `name` after the last '.', or all of them when
`name` has no '.' — the semantics of Rust `name.rsplit('.').next()`
(which always yields a first fragment). -/
def afterLastDot (l : List Char) : List Char :=
  (l.reverse.takeWhile (fun c => c ≠ '.')).reverse

/-- Extension extraction of the MFT enumerator
(mft_reader.rs, `enumerate_usn_data`, lines 241–245):
`if !is_dir { name.rsplit('.').next().map(|s| s.to_lowercase()) } else { None }`. -/
def mft_extension (is_dir : Bool) (name : String) : Option String :=
  if !is_dir then some (strToLower (String.mk (afterLastDot name.data)))
  else none

/-- Rust `str::contains(char)`, membership of a character in a string's
character list. -/
def listContainsChar : List Char → Char → Bool
  | [], _ => false
  | c :: rest, d => c = d || listContainsChar rest d

/-- Rust `std::path::Path::extension` applied to a file name: `none` when
the name has no embedded '.', or when it begins with '.' and has no other
'.'; otherwise the portion after the final '.'. -/
def rustPathExtension (name : List Char) : Option (List Char) :=
  match name with
  | [] => none
  | c :: rest =>
    if c = '.' then
      if listContainsChar rest '.' then some (afterLastDot (c :: rest)) else none
    else
      if listContainsChar (c :: rest) '.' then some (afterLastDot (c :: rest)) else none

/-- Extension extraction of the fallback metadata extractor
(metadata_extractor.rs, `extract`, lines 40–44):
`if !metadata.is_dir() { path.extension().map(|e| e.to_string_lossy().to_lowercase()) }
else { None }`, for a path whose file name is `name`. -/
def metadata_extractor_extension (is_dir : Bool) (name : String) : Option String :=
  if !is_dir then
    (rustPathExtension name.data).map (fun e => strToLower (String.mk e))
  else none

/-- The extension invariant claimed by the spec for a non-directory entry:
the extension is absent, or the name contains a '.' and the extension is
the lowercased suffix after the last '.'. -/
def extensionClaimOK (name : String) (ext : Option String) : Prop :=
  ext = none ∨
    (listContainsChar name.data '.' = true ∧
      ext = some (strToLower (String.mk (afterLastDot name.data))))

instance extensionClaimOK.instDecidable (name : String) (ext : Option String) :
    Decidable (extensionClaimOK name ext) := by
  unfold extensionClaimOK
  infer_instance

/-- The FFI search result record (ffi/mod.rs, `struct FfiSearchResult`);
the two C string pointers are modelled by the strings they point to. -/
structure FfiSearchResult where
  path : String
  name : String
  size : Nat
  is_dir : Bool
deriving DecidableEq, Repr

/-- `entry.path.replace('\0', "_")` — null bytes replaced by underscores
before crossing the boundary. -/
def replaceNul (s : String) : String :=
  String.mk (s.data.map (fun c => if c = '\x00' then '_' else c))

/-- ffi/mod.rs, `FfiSearchResult::from_entry`.  After the null-byte
replacement `CString::new` cannot fail, so the error branches that would
return null pointers are unreachable. -/
def FfiSearchResult.from_entry (e : FileEntry) : FfiSearchResult :=
  { path := replaceNul e.path
    name := replaceNul e.name
    size := e.size
    is_dir := e.is_dir }

/-- ffi/mod.rs, `nexus_get_search_result`: look up the cached search
results at `index`; `none` models the null pointer returned when the index
is out of range.  The poisoned-mutex branch (also null) is a concurrency
failure outside this sequential model. -/
def nexus_get_search_result (search_results : List FileEntry) (index : Nat) :
    Option FfiSearchResult :=
  match search_results.get? index with
  | some entry => some (FfiSearchResult.from_entry entry)
  | none => none

/-- Index configuration (indexer/mod.rs, `struct IndexConfig`). -/
structure IndexConfig where
  drives : List Char
  include_hidden : Bool
  include_system : Bool
  compute_hashes : Bool
  max_hash_size : Nat
  extensions : List String
  exclude_dirs : List String
  use_mft : Bool
  threads : Nat
deriving DecidableEq, Repr

/-- `sub` is a leading block of `hay` (helper for substring containment). -/
def startsWithChars : List Char → List Char → Bool
  | _, [] => true
  | [], _ :: _ => false
  | c :: cs, d :: ds => c = d && startsWithChars cs ds

/-- Rust `str::contains(&str)`: `sub` occurs contiguously in `hay`. -/
def containsChars : List Char → List Char → Bool
  | [], sub => sub.isEmpty
  | c :: t, sub => startsWithChars (c :: t) sub || containsChars t sub

/-- Rust `char::to_ascii_lowercase`. -/
def asciiLowerChar (c : Char) : Char :=
  if 'A' ≤ c ∧ c ≤ 'Z' then Char.ofNat (c.toNat + 32) else c

/-- Rust `str::eq_ignore_ascii_case`. -/
def eqIgnoreAsciiCase (a b : String) : Bool :=
  a.data.map asciiLowerChar = b.data.map asciiLowerChar

/-- The extension clause of `should_include` (indexer/mod.rs lines
229–243): when an extension set is configured and the entry is a file,
accept iff its extension case-insensitively matches one of the set;
otherwise fall through to `true`. -/
def extensionCheck (cfg : IndexConfig) (entry : FileEntry) : Bool :=
  if !cfg.extensions.isEmpty && !entry.is_dir then
    match entry.extension with
    | some ext => cfg.extensions.any (fun e => eqIgnoreAsciiCase e ext)
    | none => false
  else true

/-- indexer/mod.rs, `fn should_include`: the early-return chain checking
hidden, system, excluded directory substrings, then the extension set. -/
def should_include (cfg : IndexConfig) (entry : FileEntry) : Bool :=
  if !cfg.include_hidden && entry.is_hidden then false
  else if !cfg.include_system && entry.is_system then false
  else if cfg.exclude_dirs.any (fun exclude => containsChars entry.path.data exclude.data) then
    false
  else extensionCheck cfg entry

/-- Error kinds (lib.rs, `enum NexusError`); the `Io` payload is modelled
by its message string. -/
inductive NexusError where
  | Io (msg : String)
  | Index (msg : String)
  | Search (msg : String)
  | Windows (msg : String)
  | PermissionDenied (msg : String)
  | InvalidPath (msg : String)
deriving DecidableEq, Repr

/-- The ambient filesystem, abstracted: whether a path exists, and the
file entries that a walkdir traversal rooted at a path yields after
metadata extraction.  Both walkdir and the metadata extractor are external
collaborators of the core, so they enter the model as oracles. -/
structure FileSystem where
  pathExists : String → Bool
  walk : String → List FileEntry

/-- DashMap insert keyed by path: replace the value when the key is
present, append otherwise. -/
def mapInsertStr (m : List (String × FileEntry)) (k : String) (v : FileEntry) :
    List (String × FileEntry) :=
  if m.any (fun p => p.1 = k) then
    m.map (fun p => if p.1 = k then (k, v) else p)
  else m ++ [(k, v)]

/-- indexer/mod.rs, `fn index_with_walkdir`: walk the tree, extract
metadata, keep entries passing `should_include`, and insert them into the
shared path-keyed map.  The Rust iteration is parallel and unordered; the
model processes the walker's entries in traversal order. -/
def index_with_walkdir (fs : FileSystem) (cfg : IndexConfig) (root : String) :
    List (String × FileEntry) :=
  (fs.walk root).foldl
    (fun m fe => if should_include cfg fe then mapInsertStr m fe.path fe else m) []

/-- indexer/mod.rs, `fn index_directory`: reject a non-existent path with
`InvalidPath` carrying its string representation, otherwise collect the
walkdir map's values. -/
def index_directory (fs : FileSystem) (cfg : IndexConfig) (path : String) :
    Except NexusError (List FileEntry) :=
  if fs.pathExists path then
    Except.ok ((index_with_walkdir fs cfg path).map Prod.snd)
  else
    Except.error (NexusError.InvalidPath path)

/-- A document of the search index, as built by `index_entries`
(tantivy_engine.rs lines 166–176): the stored fields of one FileEntry. -/
structure Doc where
  path : String
  name : String
  extension : String
  size : Nat
  is_dir : Nat
  drive : String
  parent : String
  modified : Int
deriving DecidableEq, Repr

/-- The `doc!` construction inside `index_entries`. -/
def docOfEntry (e : FileEntry) : Doc :=
  { path := e.path
    name := e.name
    extension := e.extension.getD ""
    size := e.size
    is_dir := if e.is_dir then 1 else 0
    drive := String.mk [e.drive]
    parent := e.parent
    modified := e.modified.getD 0 }

/-- The tantivy IndexWriter, modelled by its committed (searcher-visible)
documents and the documents added since the last commit.  `add_document`
appends to the pending queue, `commit` publishes the whole queue; the
engine never calls `rollback`.  This is the documented behaviour of the
external index library the code is built on. -/
structure IndexWriter where
  committed : List Doc
  pending : List Doc
deriving DecidableEq, Repr

/-- `IndexWriter::add_document`; the abstract predicate `ok` says which
documents the library accepts (a failing add returns `none`). -/
def addDocument (ok : Doc → Bool) (w : IndexWriter) (d : Doc) : Option IndexWriter :=
  if ok d then some { w with pending := w.pending ++ [d] } else none

/-- `IndexWriter::commit`: publish everything added since the last commit. -/
def commitW (w : IndexWriter) : IndexWriter :=
  { committed := w.committed ++ w.pending, pending := [] }

/-- tantivy_engine.rs, `fn index_entries`: add every entry as a document,
then commit once.  The first failing add returns an Index error at once —
no commit and no rollback, exactly as the source.  Returns the writer
state and whether the call succeeded. -/
def index_entries (ok : Doc → Bool) (w : IndexWriter) (entries : List FileEntry) :
    IndexWriter × Bool :=
  match entries with
  | [] => (commitW w, true)
  | e :: rest =>
    match addDocument ok w (docOfEntry e) with
    | some w1 => index_entries ok w1 rest
    | none => (w, false)

/-- An accept-all-but-"bad" add predicate, a minimal model of a document
the index library rejects mid-batch. -/
def okNotBad (d : Doc) : Bool := d.name ≠ "bad"

/-- Concrete entries for the batch-atomicity scenario. -/
def entryGood1 : FileEntry :=
  { path := "C:\\good1"
    name := "good1"
    extension := none
    size := 1
    created := none
    modified := none
    accessed := none
    is_dir := false
    is_hidden := false
    is_system := false
    content_hash := none
    parent := "C:"
    drive := 'C' }

def entryBad : FileEntry :=
  { entryGood1 with path := "C:\\bad", name := "bad" }

def entryGood2 : FileEntry :=
  { entryGood1 with path := "C:\\good2", name := "good2" }

/-- Whether the duplicate scan keeps an entry (ffi/mod.rs,
`nexus_find_duplicates`): files only, size at least the minimum. -/
def dupQual (min_size : Nat) (e : FileEntry) : Bool :=
  !e.is_dir && min_size ≤ e.size

/-- One step of the size-bucketing loop:
`size_groups.entry(entry.size).or_default().push(entry)`, the HashMap
modelled as an association list keyed by size. -/
def pushSizeGroup : List (Nat × List FileEntry) → FileEntry → List (Nat × List FileEntry)
  | [], e => [(e.size, [e])]
  | (sz, g) :: rest, e =>
    if sz = e.size then (sz, g ++ [e]) :: rest
    else (sz, g) :: pushSizeGroup rest e

/-- The bucketing loop of `nexus_find_duplicates` over the cached entries. -/
def sizeGroups (entries : List FileEntry) (min_size : Nat) :
    List (Nat × List FileEntry) :=
  entries.foldl (fun gs e => if dupQual min_size e then pushSizeGroup gs e else gs) []

/-- ffi/mod.rs, `nexus_find_duplicates`: count size buckets holding at
least two qualifying entries.  The i64 return is modelled as `Int`; the
−1 poisoned-lock branch is a concurrency failure outside this sequential
model. -/
def nexus_find_duplicates (entries : List FileEntry) (min_size : Nat) : Int :=
  ((sizeGroups entries min_size).filter (fun g => 1 < g.2.length)).length

/-- Modelled from the spec: the sizes of the qualifying entries, in order. -/
def qualSizes (entries : List FileEntry) (min_size : Nat) : List Nat :=
  (entries.filter (dupQual min_size)).map (fun e => e.size)

/-- Modelled from the spec: "bucket by size (files only, size ≥ min);
count buckets with ≥ 2 entries" — the number of distinct qualifying sizes
occurring at least twice. -/
def find_duplicates_spec (entries : List FileEntry) (min_size : Nat) : Int :=
  ((qualSizes entries min_size).dedup.filter
    (fun s => 2 ≤ (qualSizes entries min_size).count s)).length

/-- Bucket lookup by size (absent buckets read as empty). -/
def lookupGroup : List (Nat × List FileEntry) → Nat → List FileEntry
  | [], _ => []
  | (sz, g) :: rest, s => if sz = s then g else lookupGroup rest s

/-- The Rust `size_of::<UsnRecord>()` of the repr(C) header struct used by
both parsing loops: 60 bytes of fields padded to 64 by the 8-byte
alignment of its u64/i64 members. -/
def usnHeaderSize : Nat := 64

/-- Little-endian read of `n` bytes at `off`, the struct-field load the
Rust code performs by pointer cast.  Bytes beyond the list read as 0; the
actual access bounds are tracked separately as read events. -/
def readLE (buf : List Nat) (off : Nat) : Nat → Nat
  | 0 => 0
  | n + 1 => buf.getD off 0 + 256 * readLE buf (off + 1) n

/-- A memory access performed by a parsing loop: a record-header load
covering bytes [off, off + usnHeaderSize), or a filename load of `len`
bytes starting at `start`. -/
inductive ReadEvent where
  | header (off : Nat)
  | nameBytes (start len : Nat)
deriving DecidableEq, Repr

/-- The byte range of a read event lies below `bound`. -/
def ReadEvent.within (bound : Nat) : ReadEvent → Prop
  | ReadEvent.header off => off + usnHeaderSize ≤ bound
  | ReadEvent.nameBytes start len => start + len ≤ bound

/-- The record-parsing loop of the MFT enumerator (mft_reader.rs,
`enumerate_usn_data`, lines 163–273), embedded with structural fuel; each
iteration advances by `RecordLength ≥ 1`, so `bytesReturned` fuel always
suffices (see the wrapper below).  Field loads are little-endian reads at
the repr(C) offsets: RecordLength at +0 (u32), FileNameLength at +56
(u16), FileNameOffset at +58 (u16).  Returns the reads performed and the
final offset. -/
def enumUsnLoopF : Nat → List Nat → Nat → Nat → Nat → List ReadEvent × Nat
  | 0, _, _, _, offset => ([], offset)
  | fuel + 1, buf, br, bs, offset =>
    if offset < br then
      if offset + usnHeaderSize ≤ br then
        if readLE buf offset 4 = 0 ∨ bs < readLE buf offset 4 then
          ([ReadEvent.header offset], offset)
        else if br < offset + readLE buf offset 4 then
          ([ReadEvent.header offset], offset)
        else if offset + readLE buf (offset + 58) 2 < offset + usnHeaderSize ∨
            offset + readLE buf offset 4 <
              offset + readLE buf (offset + 58) 2 + readLE buf (offset + 56) 2 ∨
            br < offset + readLE buf (offset + 58) 2 + readLE buf (offset + 56) 2 then
          (ReadEvent.header offset ::
            (enumUsnLoopF fuel buf br bs (offset + readLE buf offset 4)).1,
            (enumUsnLoopF fuel buf br bs (offset + readLE buf offset 4)).2)
        else if 0 < readLE buf (offset + 56) 2 / 2 ∧
            offset + readLE buf (offset + 58) 2 + readLE buf (offset + 56) 2 ≤ br then
          (ReadEvent.header offset ::
            ReadEvent.nameBytes (offset + readLE buf (offset + 58) 2)
              (2 * (readLE buf (offset + 56) 2 / 2)) ::
            (enumUsnLoopF fuel buf br bs (offset + readLE buf offset 4)).1,
            (enumUsnLoopF fuel buf br bs (offset + readLE buf offset 4)).2)
        else
          (ReadEvent.header offset ::
            (enumUsnLoopF fuel buf br bs (offset + readLE buf offset 4)).1,
            (enumUsnLoopF fuel buf br bs (offset + readLE buf offset 4)).2)
      else ([], offset)
    else ([], offset)

/-- The MFT enumerator's parsing pass over one IOCTL output buffer,
starting after the 8-byte next-cursor. -/
def enumUsnData (buf : List Nat) (br bs : Nat) : List ReadEvent × Nat :=
  enumUsnLoopF br buf br bs 8

/-- The record-parsing loop of the USN journal tailer (usn_journal.rs,
`start_monitoring`, lines 186–241), embedded with structural fuel.  Unlike
the enumerator it checks neither a maximum record length, nor that the
record lies within `bytesReturned`, nor the filename offset against the
header size or record length: the filename is read whenever its end is at
most `bytesReturned`.  Channel sends are modelled as succeeding. -/
def tailUsnLoopF : Nat → List Nat → Nat → Nat → List ReadEvent × Nat
  | 0, _, _, offset => ([], offset)
  | fuel + 1, buf, br, offset =>
    if offset < br then
      if offset + usnHeaderSize ≤ br then
        if readLE buf offset 4 = 0 then
          ([ReadEvent.header offset], offset)
        else if offset + readLE buf (offset + 58) 2 + readLE buf (offset + 56) 2 ≤ br then
          (ReadEvent.header offset ::
            ReadEvent.nameBytes (offset + readLE buf (offset + 58) 2)
              (2 * (readLE buf (offset + 56) 2 / 2)) ::
            (tailUsnLoopF fuel buf br (offset + readLE buf offset 4)).1,
            (tailUsnLoopF fuel buf br (offset + readLE buf offset 4)).2)
        else
          (ReadEvent.header offset ::
            (tailUsnLoopF fuel buf br (offset + readLE buf offset 4)).1,
            (tailUsnLoopF fuel buf br (offset + readLE buf offset 4)).2)
      else ([], offset)
    else ([], offset)

/-- The tailer's parsing pass over one IOCTL output buffer, starting after
the 8-byte next-cursor. -/
def tailUsnData (buf : List Nat) (br : Nat) : List ReadEvent × Nat :=
  tailUsnLoopF br buf br 8

/-- Every filename read of the MFT enumerator is validated: it lies inside
its record past the fixed header, and ends within `bytesReturned`. -/
def enumNameGuardOK (buf : List Nat) (br : Nat) : ReadEvent → Prop
  | ReadEvent.header _ => True
  | ReadEvent.nameBytes start len =>
    ∃ off, start = off + readLE buf (off + 58) 2 ∧
      usnHeaderSize ≤ readLE buf (off + 58) 2 ∧
      readLE buf (off + 58) 2 + readLE buf (off + 56) 2 ≤ readLE buf off 4 ∧
      start + readLE buf (off + 56) 2 ≤ br ∧
      len = 2 * (readLE buf (off + 56) 2 / 2)

/-- A stopping condition of the enumerator loop, evaluated at the final
offset: remaining bytes below the header size, a zero or over-large record
length, or a record extending past `bytesReturned`. -/
def enumStopOK (buf : List Nat) (br bs fin : Nat) : Prop :=
  br < fin + usnHeaderSize ∨ readLE buf fin 4 = 0 ∨ bs < readLE buf fin 4 ∨
    br < fin + readLE buf fin 4

/-- A buffer on which the tailer reads a filename that overlaps the record
header: one record at offset 8 with RecordLength = 80 (byte 8),
FileNameLength = 2 (byte 64) and FileNameOffset = 0 (bytes 66–67 zero). -/
def tailCexBuf : List Nat := ((List.replicate 88 0).set 8 80).set 64 2

/-- A sample file entry used to instantiate hypotheses of the theorems. -/
def sampleEntry : FileEntry :=
  { path := "C:\\a.txt"
    name := "a.txt"
    extension := some "txt"
    size := 3
    created := none
    modified := none
    accessed := none
    is_dir := false
    is_hidden := false
    is_system := false
    content_hash := none
    parent := "C:"
    drive := 'C' }

/-- A configuration under which `sampleEntry` is accepted. -/
def acceptCfg : IndexConfig :=
  { drives := ['C']
    include_hidden := false
    include_system := false
    compute_hashes := false
    max_hash_size := 0
    extensions := []
    exclude_dirs := []
    use_mft := true
    threads := 1 }

/-- A configuration under which `sampleEntry` is rejected (its path
contains the excluded substring "a.txt"). -/
def rejectCfg : IndexConfig :=
  { acceptCfg with exclude_dirs := ["a.txt"] }

/-- A sample filesystem in which only "C:\\ok" exists and a walk yields
the sample entry. -/
def sampleFs : FileSystem :=
  { pathExists := fun p => p = "C:\\ok"
    walk := fun _ => [sampleEntry] }

/-- Like `sampleFs` but with an empty walk, to witness walk independence. -/
def sampleFsNoWalk : FileSystem :=
  { pathExists := fun p => p = "C:\\ok"
    walk := fun _ => [] }

/-- The bucketing-loop invariant: the bucket keys are exactly the distinct
processed sizes, and each bucket's length is that size's multiplicity. -/
def GroupsInv (gs : List (Nat × List FileEntry)) (sizes : List Nat) : Prop :=
  (gs.map Prod.fst).Nodup ∧
  (∀ s, s ∈ gs.map Prod.fst ↔ s ∈ sizes) ∧
  (∀ s, (lookupGroup gs s).length = sizes.count s)

/-- The six-entry duplicate-grouping scenario from the spec. -/
def dupEntry (nm : String) (sz : Nat) : FileEntry :=
  { entryGood1 with name := nm, path := nm, size := sz }

def dupExample : List FileEntry :=
  [dupEntry "f1" 100, dupEntry "f2" 100, dupEntry "f3" 200,
   dupEntry "f4" 200, dupEntry "f5" 200, dupEntry "f6" 300]

theorem String.mk_append_mk (a b : List Char) :
    String.mk a ++ String.mk b = String.mk (a ++ b) := rfl

theorem globToRegexList_eq_escapeChars (l : List Char)
    (h : ∀ c ∈ l, c ≠ '*' ∧ c ≠ '?') :
    globToRegexList l = escapeChars l := by
  induction l with
  | nil => rfl
  | cons c rest ih =>
    have hc := h c (List.mem_cons_self c rest)
    have hrest : ∀ c ∈ rest, c ≠ '*' ∧ c ≠ '?' :=
      fun d hd => h d (List.mem_cons_of_mem c hd)
    simp only [globToRegexList, escapeChars, globCharToRegex, isSpecEscapedChar,
      if_neg hc.1, if_neg hc.2, ih hrest]
    by_cases hesc : c = '.' ∨ c = '+' ∨ c = '(' ∨ c = ')' ∨ c = '[' ∨ c = ']' ∨
        c = '\x7b' ∨ c = '\x7d' ∨ c = '^' ∨ c = '$' ∨ c = '|' ∨ c = '\\'
    · simp [hesc]
    · simp [hesc]

/-- C5: reason_to_change_type tests the reason bits in the fixed order
Created, Deleted, Modified, Renamed (with empty old name), SecurityChange,
returns the first match, Unknown when none match; and the five concrete
values from the spec map as stated. -/
theorem reason_to_change_type_spec :
    (∀ r : Nat, r &&& USN_REASON_FILE_CREATE ≠ 0 →
      reason_to_change_type r = ChangeType.Created) ∧
    (∀ r : Nat, r &&& USN_REASON_FILE_CREATE = 0 →
      r &&& USN_REASON_FILE_DELETE ≠ 0 →
      reason_to_change_type r = ChangeType.Deleted) ∧
    (∀ r : Nat, r &&& USN_REASON_FILE_CREATE = 0 →
      r &&& USN_REASON_FILE_DELETE = 0 →
      r &&& (USN_REASON_DATA_OVERWRITE ||| USN_REASON_DATA_EXTEND |||
        USN_REASON_DATA_TRUNCATION) ≠ 0 →
      reason_to_change_type r = ChangeType.Modified) ∧
    (∀ r : Nat, r &&& USN_REASON_FILE_CREATE = 0 →
      r &&& USN_REASON_FILE_DELETE = 0 →
      r &&& (USN_REASON_DATA_OVERWRITE ||| USN_REASON_DATA_EXTEND |||
        USN_REASON_DATA_TRUNCATION) = 0 →
      r &&& (USN_REASON_RENAME_OLD_NAME ||| USN_REASON_RENAME_NEW_NAME) ≠ 0 →
      reason_to_change_type r = ChangeType.Renamed "") ∧
    (∀ r : Nat, r &&& USN_REASON_FILE_CREATE = 0 →
      r &&& USN_REASON_FILE_DELETE = 0 →
      r &&& (USN_REASON_DATA_OVERWRITE ||| USN_REASON_DATA_EXTEND |||
        USN_REASON_DATA_TRUNCATION) = 0 →
      r &&& (USN_REASON_RENAME_OLD_NAME ||| USN_REASON_RENAME_NEW_NAME) = 0 →
      r &&& USN_REASON_SECURITY_CHANGE ≠ 0 →
      reason_to_change_type r = ChangeType.SecurityChange) ∧
    (∀ r : Nat, r &&& USN_REASON_FILE_CREATE = 0 →
      r &&& USN_REASON_FILE_DELETE = 0 →
      r &&& (USN_REASON_DATA_OVERWRITE ||| USN_REASON_DATA_EXTEND |||
        USN_REASON_DATA_TRUNCATION) = 0 →
      r &&& (USN_REASON_RENAME_OLD_NAME ||| USN_REASON_RENAME_NEW_NAME) = 0 →
      r &&& USN_REASON_SECURITY_CHANGE = 0 →
      reason_to_change_type r = ChangeType.Unknown) ∧
    reason_to_change_type 0x00000100 = ChangeType.Created ∧
    reason_to_change_type 0x00000200 = ChangeType.Deleted ∧
    reason_to_change_type 0x00000006 = ChangeType.Modified ∧
    reason_to_change_type 0x00001000 = ChangeType.Renamed "" ∧
    reason_to_change_type 0x00000000 = ChangeType.Unknown := by
  refine ⟨?_, ?_, ?_, ?_, ?_, ?_, ?_, ?_, ?_, ?_, ?_⟩
  · intro r h1; simp [reason_to_change_type, h1]
  · intro r h1 h2; simp [reason_to_change_type, h1, h2]
  · intro r h1 h2 h3; simp [reason_to_change_type, h1, h2, h3]
  · intro r h1 h2 h3 h4; simp [reason_to_change_type, h1, h2, h3, h4]
  · intro r h1 h2 h3 h4 h5; simp [reason_to_change_type, h1, h2, h3, h4, h5]
  · intro r h1 h2 h3 h4 h5; simp [reason_to_change_type, h1, h2, h3, h4, h5]
  · decide
  · decide
  · decide
  · decide
  · decide

/-- Witness for C5: the hypotheses of the conditional conjuncts are
satisfiable at a concrete reason value. -/
theorem reason_to_change_type_spec_witness :
    reason_to_change_type 0x00000800 = ChangeType.SecurityChange :=
  reason_to_change_type_spec.2.2.2.2.1 0x00000800
    (by decide) (by decide) (by decide) (by decide) (by decide)

/-- C6: glob_to_regex maps the three concrete spec examples as stated, and
for every string with no glob metacharacters it returns
`"^" ++ escape S ++ "$"`. -/
theorem glob_to_regex_spec :
    glob_to_regex "*.txt" = "^.*\\.txt$" ∧
    glob_to_regex "file?.txt" = "^file.\\.txt$" ∧
    glob_to_regex "test" = "^test$" ∧
    ∀ S : String, (∀ c ∈ S.data, c ≠ '*' ∧ c ≠ '?') →
      glob_to_regex S = "^" ++ escapeStr S ++ "$" := by
  refine ⟨by decide, by decide, by decide, ?_⟩
  intro S h
  show String.mk ('^' :: (globToRegexList S.data ++ ['$'])) = _
  rw [globToRegexList_eq_escapeChars S.data h]
  rfl

/-- Witness for C6: the literal-string law applied at `"test"`. -/
theorem glob_to_regex_spec_witness :
    glob_to_regex "test" = "^" ++ escapeStr "test" ++ "$" :=
  glob_to_regex_spec.2.2.2 "test" (by decide)

/-- C2 (divergence witness): on the cyclic two-element reference table,
`build_path` never completes, however much fuel it is given.  The memo
cache is written only after the recursive call returns, so the cache never
changes while descending the cycle and cannot act as the visit guard the
spec describes: resolving reference 1 recurses between 1 and 2 forever
(in the Rust source, unbounded recursion / stack overflow). -/
theorem build_path_cycle_diverges :
    ∀ fuel : Nat,
      build_path fuel cyclicRefs [] 1 = none ∧
      build_path fuel cyclicRefs [] 2 = none := by
  intro fuel
  induction fuel with
  | zero => exact ⟨rfl, rfl⟩
  | succ n ih =>
    obtain ⟨h1, h2⟩ := ih
    simp only [cyclicRefs] at h1 h2
    constructor
    · show build_path (n + 1) cyclicRefs [] 1 = none
      simp [build_path, cyclicRefs, List.lookup, h2]
    · show build_path (n + 1) cyclicRefs [] 2 = none
      simp [build_path, cyclicRefs, List.lookup, h1]

theorem takeWhile_eq_self_of_all {p : Char → Bool} :
    ∀ m : List Char, (∀ c ∈ m, p c = true) → m.takeWhile p = m := by
  intro m h
  induction m with
  | nil => rfl
  | cons c rest ih =>
    have hc := h c (List.mem_cons_self c rest)
    simp only [List.takeWhile_cons, hc]
    exact congrArg (c :: ·) (ih fun d hd => h d (List.mem_cons_of_mem c hd))

theorem not_mem_of_listContainsChar_eq_false {l : List Char} {d : Char}
    (h : listContainsChar l d = false) : ∀ c ∈ l, c ≠ d := by
  induction l with
  | nil => intro c hc; cases hc
  | cons a rest ih =>
    simp only [listContainsChar, Bool.or_eq_false_iff, decide_eq_false_iff_not] at h
    intro c hc
    rcases List.mem_cons.mp hc with rfl | hmem
    · exact h.1
    · exact ih h.2 c hmem

theorem afterLastDot_of_no_dot {l : List Char}
    (h : listContainsChar l '.' = false) : afterLastDot l = l := by
  unfold afterLastDot
  rw [takeWhile_eq_self_of_all l.reverse ?_, List.reverse_reverse]
  intro c hc
  have := not_mem_of_listContainsChar_eq_false h c (List.mem_reverse.mp hc)
  simpa using this

theorem rustPathExtension_cases (l : List Char) :
    rustPathExtension l = none ∨
      (listContainsChar l '.' = true ∧
        rustPathExtension l = some (afterLastDot l)) := by
  match l with
  | [] => exact Or.inl rfl
  | c :: rest =>
    by_cases hc : c = '.'
    · by_cases hr : listContainsChar rest '.'
      · refine Or.inr ⟨?_, ?_⟩
        · simp [listContainsChar, hr]
        · simp [rustPathExtension, hc, hr]
      · exact Or.inl (by simp [rustPathExtension, hc, hr])
    · by_cases hn : listContainsChar (c :: rest) '.'
      · exact Or.inr ⟨hn, by simp [rustPathExtension, hc, hn]⟩
      · exact Or.inl (by simp [rustPathExtension, hc, hn])

/-- C4 counterexample: the MFT enumerator gives the dot-free file name
"README" the extension `some "readme"` instead of leaving it absent, so
the claimed invariant fails on MFT-produced entries. -/
theorem mft_extension_no_dot_counterexample :
    mft_extension false "README" = some "readme" ∧
    ¬ extensionClaimOK "README" (mft_extension false "README") := by
  constructor
  · decide
  · decide

/-- C4 amended: the fallback metadata extractor always satisfies the
claimed extension invariant; the MFT enumerator satisfies it whenever the
file name contains a '.', but maps a dot-free name to the lowercased whole
name rather than to an absent extension. -/
theorem extension_invariant_amended :
    (∀ name : String,
      extensionClaimOK name (metadata_extractor_extension false name)) ∧
    (∀ name : String, listContainsChar name.data '.' = true →
      mft_extension false name =
        some (strToLower (String.mk (afterLastDot name.data)))) ∧
    (∀ name : String, listContainsChar name.data '.' = false →
      mft_extension false name = some (strToLower name)) := by
  refine ⟨?_, ?_, ?_⟩
  · intro name
    unfold extensionClaimOK metadata_extractor_extension
    rcases rustPathExtension_cases name.data with h | ⟨hdot, h⟩
    · exact Or.inl (by simp [h])
    · exact Or.inr ⟨hdot, by simp [h]⟩
  · intro name _
    simp [mft_extension]
  · intro name h
    simp only [mft_extension, Bool.not_false, if_pos rfl, afterLastDot_of_no_dot h]
    exact congrArg (some ∘ strToLower) rfl

/-- Witness for C4: the amended invariant evaluated at the concrete names
"a.txt" (contains a dot) and "README" (no dot). -/
theorem extension_invariant_amended_witness :
    extensionClaimOK "a.txt" (metadata_extractor_extension false "a.txt") ∧
    mft_extension false "a.txt" =
      some (strToLower (String.mk (afterLastDot "a.txt".data))) ∧
    mft_extension false "README" = some (strToLower "README") :=
  ⟨extension_invariant_amended.1 "a.txt",
   extension_invariant_amended.2.1 "a.txt" (by decide),
   extension_invariant_amended.2.2 "README" (by decide)⟩

/-- C9: nexus_get_search_result returns the Nth cached result when the
index is below the number of stored results, and null (`none`) for every
index at or beyond it, including on an empty result set (no search run);
it is a total function on every input, so it cannot panic. -/
theorem nexus_get_search_result_spec :
    (∀ (results : List FileEntry) (index : Nat) (h : index < results.length),
      nexus_get_search_result results index =
        some (FfiSearchResult.from_entry (results.get ⟨index, h⟩))) ∧
    (∀ (results : List FileEntry) (index : Nat), results.length ≤ index →
      nexus_get_search_result results index = none) ∧
    (∀ index : Nat, nexus_get_search_result [] index = none) := by
  refine ⟨?_, ?_, ?_⟩
  · intro results index h
    simp [nexus_get_search_result, List.getElem?_eq_getElem h]
  · intro results index h
    simp [nexus_get_search_result, List.getElem?_eq_none h]
  · intro index
    simp [nexus_get_search_result]

/-- Witness for C9: a one-element result list, queried in range (index 0)
and out of range (index 5). -/
theorem nexus_get_search_result_spec_witness :
    nexus_get_search_result [sampleEntry] 0 =
      some (FfiSearchResult.from_entry sampleEntry) ∧
    nexus_get_search_result [sampleEntry] 5 = none :=
  ⟨(nexus_get_search_result_spec.1 [sampleEntry] 0 (by decide)).trans rfl,
   nexus_get_search_result_spec.2.1 [sampleEntry] 5 (by decide)⟩

theorem should_include_eq (cfg : IndexConfig) (e : FileEntry) :
    should_include cfg e =
      ((!(!cfg.include_hidden && e.is_hidden)) &&
       (!(!cfg.include_system && e.is_system)) &&
       (!(cfg.exclude_dirs.any fun ex => containsChars e.path.data ex.data)) &&
       extensionCheck cfg e) := by
  unfold should_include
  cases hA : (!cfg.include_hidden && e.is_hidden) <;>
    cases hB : (!cfg.include_system && e.is_system) <;>
      cases hC : (cfg.exclude_dirs.any fun ex => containsChars e.path.data ex.data) <;>
        simp [hA, hB, hC]

theorem should_include_exclude_aux (cfg : IndexConfig) (e : FileEntry) (d : String)
    (h : should_include { cfg with exclude_dirs := cfg.exclude_dirs ++ [d] } e = true) :
    should_include cfg e = true := by
  rw [should_include_eq] at h ⊢
  rw [Bool.and_eq_true, Bool.and_eq_true, Bool.and_eq_true] at h
  obtain ⟨⟨⟨hH, hS⟩, hE⟩, hX⟩ := h
  rw [Bool.and_eq_true, Bool.and_eq_true, Bool.and_eq_true]
  refine ⟨⟨⟨hH, hS⟩, ?_⟩, hX⟩
  rw [List.any_append] at hE
  cases hl : cfg.exclude_dirs.any fun ex => containsChars e.path.data ex.data
  · rfl
  · rw [hl] at hE
    simp at hE

/-- C7: the inclusion policy is monotone in the configuration: flipping
include_hidden or include_system to true (all else equal) preserves
acceptance, and appending any substring to exclude_dirs (all else equal)
preserves rejection. -/
theorem should_include_monotone :
    (∀ (cfg : IndexConfig) (e : FileEntry), should_include cfg e = true →
      should_include { cfg with include_hidden := true } e = true) ∧
    (∀ (cfg : IndexConfig) (e : FileEntry), should_include cfg e = true →
      should_include { cfg with include_system := true } e = true) ∧
    (∀ (cfg : IndexConfig) (e : FileEntry) (d : String),
      should_include cfg e = false →
      should_include { cfg with exclude_dirs := cfg.exclude_dirs ++ [d] } e = false) := by
  refine ⟨?_, ?_, ?_⟩
  · intro cfg e h
    rw [should_include_eq] at h ⊢
    rw [Bool.and_eq_true, Bool.and_eq_true, Bool.and_eq_true] at h
    obtain ⟨⟨⟨hH, hS⟩, hE⟩, hX⟩ := h
    rw [Bool.and_eq_true, Bool.and_eq_true, Bool.and_eq_true]
    exact ⟨⟨⟨rfl, hS⟩, hE⟩, hX⟩
  · intro cfg e h
    rw [should_include_eq] at h ⊢
    rw [Bool.and_eq_true, Bool.and_eq_true, Bool.and_eq_true] at h
    obtain ⟨⟨⟨hH, hS⟩, hE⟩, hX⟩ := h
    rw [Bool.and_eq_true, Bool.and_eq_true, Bool.and_eq_true]
    exact ⟨⟨⟨hH, rfl⟩, hE⟩, hX⟩
  · intro cfg e d h
    cases hv : should_include { cfg with exclude_dirs := cfg.exclude_dirs ++ [d] } e
    · rfl
    · exact absurd (should_include_exclude_aux cfg e d hv) (by simp [h])

/-- Witness for C7: the three monotonicity laws instantiated at concrete
configurations and the sample entry. -/
theorem should_include_monotone_witness :
    should_include { acceptCfg with include_hidden := true } sampleEntry = true ∧
    should_include { acceptCfg with include_system := true } sampleEntry = true ∧
    should_include { rejectCfg with exclude_dirs := rejectCfg.exclude_dirs ++ ["x"] }
      sampleEntry = false :=
  ⟨should_include_monotone.1 acceptCfg sampleEntry (by decide),
   should_include_monotone.2.1 acceptCfg sampleEntry (by decide),
   should_include_monotone.2.2 rejectCfg sampleEntry "x" (by decide)⟩

/-- C10: on a non-existent path, index_directory returns an InvalidPath
error carrying the path string, and its result does not depend on the
walker at all (no directory walk is performed); on an existing path it
delegates to the fallback walker and returns the collected map values. -/
theorem index_directory_spec :
    (∀ (fs : FileSystem) (cfg : IndexConfig) (path : String),
      fs.pathExists path = false →
      index_directory fs cfg path = Except.error (NexusError.InvalidPath path)) ∧
    (∀ (fs fs' : FileSystem) (cfg : IndexConfig) (path : String),
      fs.pathExists = fs'.pathExists →
      fs.pathExists path = false →
      index_directory fs cfg path = index_directory fs' cfg path) ∧
    (∀ (fs : FileSystem) (cfg : IndexConfig) (path : String),
      fs.pathExists path = true →
      index_directory fs cfg path =
        Except.ok ((index_with_walkdir fs cfg path).map Prod.snd)) := by
  refine ⟨?_, ?_, ?_⟩
  · intro fs cfg path h
    simp [index_directory, h]
  · intro fs fs' cfg path heq h
    simp [index_directory, h, heq ▸ h]
  · intro fs cfg path h
    simp [index_directory, h]

theorem index_entries_success_state (ok : Doc → Bool) :
    ∀ (entries : List FileEntry) (w : IndexWriter),
      (index_entries ok w entries).2 = true →
      (index_entries ok w entries).1 =
        ⟨w.committed ++ w.pending ++ entries.map docOfEntry, []⟩ := by
  intro entries
  induction entries with
  | nil =>
    intro w _
    simp [index_entries, commitW]
  | cons e rest ih =>
    intro w h
    by_cases hok : ok (docOfEntry e) = true
    · have hstep :
          index_entries ok w (e :: rest) =
            index_entries ok ⟨w.committed, w.pending ++ [docOfEntry e]⟩ rest := by
        simp [index_entries, addDocument, hok]
      rw [hstep] at h ⊢
      rw [ih _ h]
      simp
    · exfalso
      have : index_entries ok w (e :: rest) = (w, false) := by
        simp [index_entries, addDocument, hok]
      rw [this] at h
      exact absurd h (by simp)

theorem index_entries_failure_state (ok : Doc → Bool) :
    ∀ (entries : List FileEntry) (w : IndexWriter),
      (index_entries ok w entries).2 = false →
      ∃ pre bad post, entries = pre ++ bad :: post ∧
        (∀ x ∈ pre, ok (docOfEntry x) = true) ∧
        ok (docOfEntry bad) = false ∧
        (index_entries ok w entries).1 =
          ⟨w.committed, w.pending ++ pre.map docOfEntry⟩ := by
  intro entries
  induction entries with
  | nil =>
    intro w h
    exact absurd h (by simp [index_entries])
  | cons e rest ih =>
    intro w h
    by_cases hok : ok (docOfEntry e) = true
    · have hstep :
          index_entries ok w (e :: rest) =
            index_entries ok ⟨w.committed, w.pending ++ [docOfEntry e]⟩ rest := by
        simp [index_entries, addDocument, hok]
      rw [hstep] at h
      obtain ⟨pre, bad, post, hsplit, hpre, hbad, hstate⟩ := ih _ h
      refine ⟨e :: pre, bad, post, by rw [hsplit]; rfl, ?_, hbad, ?_⟩
      · intro x hx
        rcases List.mem_cons.mp hx with rfl | hmem
        · exact hok
        · exact hpre x hmem
      · rw [hstep, hstate]
        simp
    · have hstep : index_entries ok w (e :: rest) = (w, false) := by
        simp [index_entries, addDocument, hok]
      refine ⟨[], e, rest, rfl, ?_, ?_, ?_⟩
      · intro x hx
        cases hx
      · simpa using hok
      · rw [hstep]
        simp

/-- C3 counterexample: a batch whose second document is rejected leaves
its first document pending, and a later successful call of another batch
commits it — the failed batch's document becomes visible after all,
refuting "none of the batch's documents ever become visible ...
(unchanged by subsequent commits of other batches)". -/
theorem index_entries_leak_counterexample :
    (index_entries okNotBad ⟨[], []⟩ [entryGood1, entryBad]).2 = false ∧
    (index_entries okNotBad ⟨[], []⟩ [entryGood1, entryBad]).1.committed = [] ∧
    (index_entries okNotBad
        (index_entries okNotBad ⟨[], []⟩ [entryGood1, entryBad]).1
        [entryGood2]).2 = true ∧
    docOfEntry entryGood1 ∈
      (index_entries okNotBad
        (index_entries okNotBad ⟨[], []⟩ [entryGood1, entryBad]).1
        [entryGood2]).1.committed := by
  refine ⟨?_, ?_, ?_, ?_⟩ <;> decide

/-- C3 amended: a successful `index_entries` call commits every document
of the batch (together with anything already pending) in one commit, all
visible together; a failing add returns an error with no commit in that
call and the visible document set unchanged by the call — but the
documents added before the failing one stay pending and are published by
the next successful commit. -/
theorem index_entries_atomicity_amended :
    (∀ (ok : Doc → Bool) (w : IndexWriter) (entries : List FileEntry),
      (index_entries ok w entries).2 = true →
      (index_entries ok w entries).1 =
        ⟨w.committed ++ w.pending ++ entries.map docOfEntry, []⟩) ∧
    (∀ (ok : Doc → Bool) (w : IndexWriter) (entries : List FileEntry),
      (index_entries ok w entries).2 = false →
      (index_entries ok w entries).1.committed = w.committed) ∧
    (∀ (ok : Doc → Bool) (w : IndexWriter) (entries : List FileEntry),
      (index_entries ok w entries).2 = false →
      ∃ pre bad post, entries = pre ++ bad :: post ∧
        (∀ x ∈ pre, ok (docOfEntry x) = true) ∧
        ok (docOfEntry bad) = false ∧
        (index_entries ok w entries).1 =
          ⟨w.committed, w.pending ++ pre.map docOfEntry⟩) := by
  refine ⟨?_, ?_, ?_⟩
  · intro ok w entries h
    exact index_entries_success_state ok entries w h
  · intro ok w entries h
    obtain ⟨pre, bad, post, _, _, _, hstate⟩ := index_entries_failure_state ok entries w h
    rw [hstate]
  · intro ok w entries h
    exact index_entries_failure_state ok entries w h

/-- Witness for C3: the amended behaviour evaluated on the concrete
two-batch scenario. -/
theorem index_entries_atomicity_amended_witness :
    (index_entries okNotBad ⟨[], [docOfEntry entryGood1]⟩ [entryGood2]).1 =
      ⟨[] ++ [docOfEntry entryGood1] ++ [entryGood2].map docOfEntry, []⟩ ∧
    (index_entries okNotBad ⟨[], []⟩ [entryGood1, entryBad]).1.committed = [] :=
  ⟨index_entries_atomicity_amended.1 okNotBad ⟨[], [docOfEntry entryGood1]⟩
      [entryGood2] (by decide),
   index_entries_atomicity_amended.2.1 okNotBad ⟨[], []⟩ [entryGood1, entryBad]
      (by decide)⟩

theorem pushSizeGroup_keys (e : FileEntry) :
    ∀ gs : List (Nat × List FileEntry),
      (pushSizeGroup gs e).map Prod.fst =
        if e.size ∈ gs.map Prod.fst then gs.map Prod.fst
        else gs.map Prod.fst ++ [e.size] := by
  intro gs
  induction gs with
  | nil => simp [pushSizeGroup]
  | cons hd rest ih =>
    obtain ⟨sz, g⟩ := hd
    by_cases hsz : sz = e.size
    · subst hsz
      simp [pushSizeGroup]
    · have hne : e.size ≠ sz := fun hh => hsz hh.symm
      by_cases hmem : e.size ∈ rest.map Prod.fst
      · simp [pushSizeGroup, hsz, ih, hmem, List.mem_cons, hne]
      · simp [pushSizeGroup, hsz, ih, hmem, List.mem_cons, hne]

theorem lookupGroup_push_self (e : FileEntry) :
    ∀ gs : List (Nat × List FileEntry),
      lookupGroup (pushSizeGroup gs e) e.size = lookupGroup gs e.size ++ [e] := by
  intro gs
  induction gs with
  | nil => simp [pushSizeGroup, lookupGroup]
  | cons hd rest ih =>
    obtain ⟨sz, g⟩ := hd
    by_cases hsz : sz = e.size
    · subst hsz
      simp [pushSizeGroup, lookupGroup]
    · simp [pushSizeGroup, lookupGroup, hsz, ih]

theorem lookupGroup_push_ne (e : FileEntry) (s : Nat) (hne : s ≠ e.size) :
    ∀ gs : List (Nat × List FileEntry),
      lookupGroup (pushSizeGroup gs e) s = lookupGroup gs s := by
  have hne1 : ¬ (e.size = s) := fun hh => hne hh.symm
  intro gs
  induction gs with
  | nil => simp [pushSizeGroup, lookupGroup, hne1]
  | cons hd rest ih =>
    obtain ⟨sz, g⟩ := hd
    by_cases hsz : sz = e.size
    · subst hsz
      simp [pushSizeGroup, lookupGroup, hne1, ih]
    · by_cases hs : sz = s
      · subst hs
        simp [pushSizeGroup, hsz, lookupGroup]
      · simp [pushSizeGroup, hsz, lookupGroup, hs, ih]

theorem lookupGroup_of_mem (gs : List (Nat × List FileEntry))
    (hnd : (gs.map Prod.fst).Nodup) :
    ∀ sz g, (sz, g) ∈ gs → lookupGroup gs sz = g := by
  induction gs with
  | nil => intro sz g h; cases h
  | cons hd rest ih =>
    obtain ⟨a, b⟩ := hd
    intro sz g h
    rcases List.mem_cons.mp h with heq | hmem
    · cases heq
      simp [lookupGroup]
    · have hsz : sz ∈ rest.map Prod.fst :=
        List.mem_map.mpr ⟨(sz, g), hmem, rfl⟩
      have hane : a ≠ sz := by
        intro hh
        subst hh
        exact (List.nodup_cons.mp hnd).1 hsz
      simp only [lookupGroup, if_neg hane]
      exact ih (List.nodup_cons.mp hnd).2 sz g hmem

theorem GroupsInv.push {gs : List (Nat × List FileEntry)} {sizes : List Nat}
    (h : GroupsInv gs sizes) (e : FileEntry) :
    GroupsInv (pushSizeGroup gs e) (sizes ++ [e.size]) := by
  obtain ⟨hnd, hmem, hcnt⟩ := h
  refine ⟨?_, ?_, ?_⟩
  · rw [pushSizeGroup_keys]
    by_cases hin : e.size ∈ gs.map Prod.fst
    · simpa [hin] using hnd
    · simp [hin, List.nodup_append, hnd]
  · intro s
    rw [pushSizeGroup_keys]
    by_cases hin : e.size ∈ gs.map Prod.fst
    · rw [if_pos hin]
      simp only [List.mem_append, List.mem_singleton, hmem]
      constructor
      · exact Or.inl
      · rintro (hs | rfl)
        · exact hs
        · exact (hmem e.size).mp hin
    · rw [if_neg hin]
      simp only [List.mem_append, List.mem_singleton, hmem]
  · intro s
    by_cases hs : s = e.size
    · subst hs
      rw [lookupGroup_push_self]
      simp [hcnt]
    · rw [lookupGroup_push_ne e s hs]
      have : List.count s [e.size] = 0 := by
        simp [List.count_singleton, hs]
      simp [List.count_append, hcnt, this]

theorem sizeGroups_loop_inv (min_size : Nat) :
    ∀ (l : List FileEntry) (gs : List (Nat × List FileEntry)) (sizes : List Nat),
      GroupsInv gs sizes →
      GroupsInv
        (l.foldl (fun gs e => if dupQual min_size e then pushSizeGroup gs e else gs) gs)
        (sizes ++ (l.filter (dupQual min_size)).map (fun e => e.size)) := by
  intro l
  induction l with
  | nil =>
    intro gs sizes h
    simpa using h
  | cons e rest ih =>
    intro gs sizes h
    by_cases hq : dupQual min_size e
    · have := ih (pushSizeGroup gs e) (sizes ++ [e.size]) (h.push e)
      simpa [List.foldl_cons, hq, List.filter_cons] using this
    · have := ih gs sizes h
      simpa [List.foldl_cons, hq, List.filter_cons] using this

theorem length_filter_fst (p : Nat → Bool) :
    ∀ gs : List (Nat × List FileEntry),
      (gs.filter fun g => p g.1).length = ((gs.map Prod.fst).filter p).length := by
  intro gs
  induction gs with
  | nil => rfl
  | cons hd rest ih =>
    obtain ⟨a, b⟩ := hd
    by_cases hp : p a
    · simp [List.filter_cons, hp, ih]
    · simp [List.filter_cons, hp, ih]

theorem count_filter_of_inv {gs : List (Nat × List FileEntry)} {sizes : List Nat}
    (h : GroupsInv gs sizes) :
    (gs.filter fun g => 1 < g.2.length).length =
      (sizes.dedup.filter fun s => 2 ≤ sizes.count s).length := by
  obtain ⟨hnd, hmem, hcnt⟩ := h
  have hfc : (gs.filter fun g => 1 < g.2.length) =
      (gs.filter fun g => 2 ≤ sizes.count g.1) := by
    apply List.filter_congr
    intro g hg
    have hlu : lookupGroup gs g.1 = g.2 :=
      lookupGroup_of_mem gs hnd g.1 g.2 (by simpa using hg)
    have hlen : g.2.length = sizes.count g.1 := by
      rw [← hlu, hcnt]
    rw [decide_eq_decide]
    omega
  rw [hfc]
  have hperm : List.Perm (gs.map Prod.fst) sizes.dedup := by
    rw [List.perm_ext_iff_of_nodup hnd (List.nodup_dedup sizes)]
    intro a
    rw [hmem, List.mem_dedup]
  calc (gs.filter fun g => 2 ≤ sizes.count g.1).length
      = ((gs.map Prod.fst).filter fun a => 2 ≤ sizes.count a).length :=
        length_filter_fst (fun a => 2 ≤ sizes.count a) gs
    _ = (sizes.dedup.filter fun a => 2 ≤ sizes.count a).length :=
        (hperm.filter _).length_eq

/-- C8: nexus_find_duplicates counts exactly the size classes (files only,
size at least min_size) with two or more entries, and returns 2 on the
spec's six-entry example. -/
theorem nexus_find_duplicates_spec :
    (∀ (entries : List FileEntry) (min_size : Nat),
      nexus_find_duplicates entries min_size = find_duplicates_spec entries min_size) ∧
    nexus_find_duplicates dupExample 0 = 2 := by
  constructor
  · intro entries min_size
    have hbase : GroupsInv [] [] := by
      refine ⟨List.nodup_nil, ?_, ?_⟩
      · intro s; simp [lookupGroup]
      · intro s; simp [lookupGroup]
    have hinv := sizeGroups_loop_inv min_size entries [] [] hbase
    simp only [List.nil_append] at hinv
    have hnat := count_filter_of_inv hinv
    unfold nexus_find_duplicates find_duplicates_spec qualSizes sizeGroups
    exact congrArg Int.ofNat hnat
  · decide

theorem enumUsnLoopF_events (buf : List Nat) (br bs : Nat) :
    ∀ (fuel offset : Nat), ∀ ev ∈ (enumUsnLoopF fuel buf br bs offset).1,
      ReadEvent.within br ev ∧ enumNameGuardOK buf br ev := by
  intro fuel
  induction fuel with
  | zero =>
    intro offset ev hev
    cases hev
  | succ n ih =>
    intro offset ev hev
    rw [enumUsnLoopF] at hev
    by_cases h1 : offset < br
    · rw [if_pos h1] at hev
      by_cases h2 : offset + usnHeaderSize ≤ br
      · rw [if_pos h2] at hev
        by_cases h3 : readLE buf offset 4 = 0 ∨ bs < readLE buf offset 4
        · rw [if_pos h3] at hev
          rcases List.mem_singleton.mp hev with rfl
          exact ⟨h2, trivial⟩
        · rw [if_neg h3] at hev
          by_cases h4 : br < offset + readLE buf offset 4
          · rw [if_pos h4] at hev
            rcases List.mem_singleton.mp hev with rfl
            exact ⟨h2, trivial⟩
          · rw [if_neg h4] at hev
            by_cases h5 : offset + readLE buf (offset + 58) 2 < offset + usnHeaderSize ∨
                offset + readLE buf offset 4 <
                  offset + readLE buf (offset + 58) 2 + readLE buf (offset + 56) 2 ∨
                br < offset + readLE buf (offset + 58) 2 + readLE buf (offset + 56) 2
            · rw [if_pos h5] at hev
              rcases List.mem_cons.mp hev with rfl | hev2
              · exact ⟨h2, trivial⟩
              · exact ih _ ev hev2
            · rw [if_neg h5] at hev
              push_neg at h5
              obtain ⟨h5a, h5b, h5c⟩ := h5
              by_cases h6 : 0 < readLE buf (offset + 56) 2 / 2 ∧
                  offset + readLE buf (offset + 58) 2 + readLE buf (offset + 56) 2 ≤ br
              · rw [if_pos h6] at hev
                rcases List.mem_cons.mp hev with rfl | hev2
                · exact ⟨h2, trivial⟩
                rcases List.mem_cons.mp hev2 with rfl | hev3
                · constructor
                  · show offset + readLE buf (offset + 58) 2 +
                      2 * (readLE buf (offset + 56) 2 / 2) ≤ br
                    have hfl : 2 * (readLE buf (offset + 56) 2 / 2) ≤
                        readLE buf (offset + 56) 2 := by
                      omega
                    omega
                  · refine ⟨offset, rfl, by omega, by omega, by omega, rfl⟩
                · exact ih _ ev hev3
              · rw [if_neg h6] at hev
                rcases List.mem_cons.mp hev with rfl | hev2
                · exact ⟨h2, trivial⟩
                · exact ih _ ev hev2
      · rw [if_neg h2] at hev
        cases hev
    · rw [if_neg h1] at hev
      cases hev

theorem enumUsnLoopF_final (buf : List Nat) (br bs : Nat) :
    ∀ (fuel offset : Nat), br - offset ≤ fuel →
      (enumUsnLoopF fuel buf br bs offset).2 = br ∨
      ((enumUsnLoopF fuel buf br bs offset).2 < br ∧
        enumStopOK buf br bs (enumUsnLoopF fuel buf br bs offset).2) ∨
      (br ≤ offset ∧ (enumUsnLoopF fuel buf br bs offset).2 = offset) := by
  intro fuel
  induction fuel with
  | zero =>
    intro offset hf
    have h1 : br ≤ offset := by omega
    exact Or.inr (Or.inr ⟨h1, rfl⟩)
  | succ n ih =>
    intro offset hf
    rw [enumUsnLoopF]
    by_cases h1 : offset < br
    · rw [if_pos h1]
      by_cases h2 : offset + usnHeaderSize ≤ br
      · rw [if_pos h2]
        by_cases h3 : readLE buf offset 4 = 0 ∨ bs < readLE buf offset 4
        · rw [if_pos h3]
          refine Or.inr (Or.inl ⟨h1, ?_⟩)
          rcases h3 with h3 | h3
          · exact Or.inr (Or.inl h3)
          · exact Or.inr (Or.inr (Or.inl h3))
        · rw [if_neg h3]
          by_cases h4 : br < offset + readLE buf offset 4
          · rw [if_pos h4]
            exact Or.inr (Or.inl ⟨h1, Or.inr (Or.inr (Or.inr h4))⟩)
          · rw [if_neg h4]
            have hrl : readLE buf offset 4 ≠ 0 := fun hh => h3 (Or.inl hh)
            have hf2 : br - (offset + readLE buf offset 4) ≤ n := by omega
            have hrec := ih (offset + readLE buf offset 4) hf2
            have hstep : ∀ evs : List ReadEvent,
                (evs, (enumUsnLoopF n buf br bs (offset + readLE buf offset 4)).2).2 =
                  (enumUsnLoopF n buf br bs (offset + readLE buf offset 4)).2 := fun _ => rfl
            by_cases h5 : offset + readLE buf (offset + 58) 2 < offset + usnHeaderSize ∨
                offset + readLE buf offset 4 <
                  offset + readLE buf (offset + 58) 2 + readLE buf (offset + 56) 2 ∨
                br < offset + readLE buf (offset + 58) 2 + readLE buf (offset + 56) 2
            · rw [if_pos h5]
              rcases hrec with hr | hr | hr
              · exact Or.inl hr
              · exact Or.inr (Or.inl hr)
              · exact Or.inl (by omega)
            · rw [if_neg h5]
              by_cases h6 : 0 < readLE buf (offset + 56) 2 / 2 ∧
                  offset + readLE buf (offset + 58) 2 + readLE buf (offset + 56) 2 ≤ br
              · rw [if_pos h6]
                rcases hrec with hr | hr | hr
                · exact Or.inl hr
                · exact Or.inr (Or.inl hr)
                · exact Or.inl (by omega)
              · rw [if_neg h6]
                rcases hrec with hr | hr | hr
                · exact Or.inl hr
                · exact Or.inr (Or.inl hr)
                · exact Or.inl (by omega)
      · rw [if_neg h2]
        exact Or.inr (Or.inl ⟨h1, Or.inl (by omega)⟩)
    · rw [if_neg h1]
      exact Or.inr (Or.inr ⟨by omega, rfl⟩)

theorem tailUsnLoopF_events (buf : List Nat) (br : Nat) :
    ∀ (fuel offset : Nat), ∀ ev ∈ (tailUsnLoopF fuel buf br offset).1,
      ReadEvent.within br ev := by
  intro fuel
  induction fuel with
  | zero =>
    intro offset ev hev
    cases hev
  | succ n ih =>
    intro offset ev hev
    rw [tailUsnLoopF] at hev
    by_cases h1 : offset < br
    · rw [if_pos h1] at hev
      by_cases h2 : offset + usnHeaderSize ≤ br
      · rw [if_pos h2] at hev
        by_cases h3 : readLE buf offset 4 = 0
        · rw [if_pos h3] at hev
          rcases List.mem_singleton.mp hev with rfl
          exact h2
        · rw [if_neg h3] at hev
          by_cases h4 : offset + readLE buf (offset + 58) 2 + readLE buf (offset + 56) 2 ≤ br
          · rw [if_pos h4] at hev
            rcases List.mem_cons.mp hev with rfl | hev2
            · exact h2
            rcases List.mem_cons.mp hev2 with rfl | hev3
            · show offset + readLE buf (offset + 58) 2 +
                2 * (readLE buf (offset + 56) 2 / 2) ≤ br
              have : 2 * (readLE buf (offset + 56) 2 / 2) ≤ readLE buf (offset + 56) 2 := by
                omega
              omega
            · exact ih _ ev hev3
          · rw [if_neg h4] at hev
            rcases List.mem_cons.mp hev with rfl | hev2
            · exact h2
            · exact ih _ ev hev2
      · rw [if_neg h2] at hev
        cases hev
    · rw [if_neg h1] at hev
      cases hev

theorem readEvent_within_mono {b L : Nat} (h : b ≤ L) :
    ∀ ev : ReadEvent, ReadEvent.within b ev → ReadEvent.within L ev := by
  intro ev hev
  cases ev with
  | header off => exact Nat.le_trans hev h
  | nameBytes start len => exact Nat.le_trans hev h

/-- C1 counterexample: with `bytes_returned = 88` not exceeding the buffer
length, the USN tailer reads the filename of the record at offset 8 even
though its `file_name_offset` is 0, below the fixed header size — the
claimed validation "a filename is read only when file_name_offset is at
least the header size" does not hold for the tailer loop. -/
theorem usn_tailer_guard_counterexample :
    88 ≤ tailCexBuf.length ∧
    ReadEvent.nameBytes 8 2 ∈ (tailUsnData tailCexBuf 88).1 ∧
    readLE tailCexBuf (8 + 58) 2 = 0 ∧
    readLE tailCexBuf (8 + 58) 2 < usnHeaderSize := by
  refine ⟨by decide, by decide, by decide, by decide⟩

/-- C1 amended: every read of both loops stays within `bytes_returned`
(hence within any buffer at least that long).  The MFT enumerator
additionally reads a filename only under the full validation —
`file_name_offset ≥ header_size`, `file_name_offset + file_name_length ≤
record_length`, name end ≤ `bytes_returned` — and it either consumes
exactly `bytes_returned` bytes or stops at a record boundary where a
validation failed, advancing only by `record_length`.  The USN tailer
checks only that the name end is at most `bytes_returned` before reading a
filename; its reads still stay within the buffer. -/
theorem usn_parsing_amended :
    (∀ (buf : List Nat) (br bs fuel offset : Nat),
      ∀ ev ∈ (enumUsnLoopF fuel buf br bs offset).1, ReadEvent.within br ev) ∧
    (∀ (buf : List Nat) (br bs fuel offset : Nat),
      ∀ ev ∈ (enumUsnLoopF fuel buf br bs offset).1, enumNameGuardOK buf br ev) ∧
    (∀ (buf : List Nat) (br bs fuel offset : Nat), br - offset ≤ fuel →
      (enumUsnLoopF fuel buf br bs offset).2 = br ∨
      ((enumUsnLoopF fuel buf br bs offset).2 < br ∧
        enumStopOK buf br bs (enumUsnLoopF fuel buf br bs offset).2) ∨
      (br ≤ offset ∧ (enumUsnLoopF fuel buf br bs offset).2 = offset)) ∧
    (∀ (buf : List Nat) (br fuel offset : Nat),
      ∀ ev ∈ (tailUsnLoopF fuel buf br offset).1, ReadEvent.within br ev) ∧
    (∀ (buf : List Nat) (br bs : Nat), br ≤ buf.length →
      ∀ ev ∈ (enumUsnData buf br bs).1, ReadEvent.within buf.length ev) ∧
    (∀ (buf : List Nat) (br : Nat), br ≤ buf.length →
      ∀ ev ∈ (tailUsnData buf br).1, ReadEvent.within buf.length ev) := by
  refine ⟨?_, ?_, ?_, ?_, ?_, ?_⟩
  · intro buf br bs fuel offset ev hev
    exact (enumUsnLoopF_events buf br bs fuel offset ev hev).1
  · intro buf br bs fuel offset ev hev
    exact (enumUsnLoopF_events buf br bs fuel offset ev hev).2
  · intro buf br bs fuel offset hf
    exact enumUsnLoopF_final buf br bs fuel offset hf
  · intro buf br fuel offset ev hev
    exact tailUsnLoopF_events buf br fuel offset ev hev
  · intro buf br bs hbr ev hev
    exact readEvent_within_mono hbr ev
      (enumUsnLoopF_events buf br bs br 8 ev hev).1
  · intro buf br hbr ev hev
    exact readEvent_within_mono hbr ev (tailUsnLoopF_events buf br br 8 ev hev)

/-- Witness for C1: the amended theorem applied on the concrete buffer —
the enumerator's final-offset law at fuel 88, and in-buffer bounds for the
header and filename reads the tailer performs on it. -/
theorem usn_parsing_amended_witness :
    ((enumUsnLoopF 88 tailCexBuf 88 65536 8).2 = 88 ∨
      ((enumUsnLoopF 88 tailCexBuf 88 65536 8).2 < 88 ∧
        enumStopOK tailCexBuf 88 65536 (enumUsnLoopF 88 tailCexBuf 88 65536 8).2) ∨
      (88 ≤ 8 ∧ (enumUsnLoopF 88 tailCexBuf 88 65536 8).2 = 8)) ∧
    ReadEvent.within tailCexBuf.length (ReadEvent.header 8) ∧
    ReadEvent.within tailCexBuf.length (ReadEvent.nameBytes 8 2) :=
  ⟨usn_parsing_amended.2.2.1 tailCexBuf 88 65536 88 8 (by decide),
   usn_parsing_amended.2.2.2.2.2 tailCexBuf 88 (by decide)
     (ReadEvent.header 8) (by decide),
   usn_parsing_amended.2.2.2.2.2 tailCexBuf 88 (by decide)
     (ReadEvent.nameBytes 8 2) (by decide)⟩

/-- Witness for C10: a missing path yields InvalidPath independently of
the walker; an existing path delegates to the walker. -/
theorem index_directory_spec_witness :
    index_directory sampleFs acceptCfg "C:\\missing" =
      Except.error (NexusError.InvalidPath "C:\\missing") ∧
    index_directory sampleFs acceptCfg "C:\\missing" =
      index_directory sampleFsNoWalk acceptCfg "C:\\missing" ∧
    index_directory sampleFs acceptCfg "C:\\ok" =
      Except.ok ((index_with_walkdir sampleFs acceptCfg "C:\\ok").map Prod.snd) :=
  ⟨index_directory_spec.1 sampleFs acceptCfg "C:\\missing" (by decide),
   index_directory_spec.2.1 sampleFs sampleFsNoWalk acceptCfg "C:\\missing" rfl (by decide),
   index_directory_spec.2.2 sampleFs acceptCfg "C:\\ok" (by decide)⟩

end Nexus
